import Mathlib

/-
Verification of the assetfs generator (command assetfs) and the runtime
virtual filesystem it emits.

The development is a shallow embedding of the two halves of the program:

- The runtime half (internal/template.go, duplicated as the string constant
  head in assetfs.go): types _assetfs, _itemMetadata, _assetFile and their
  methods Open, Close, Stat, Readdir, Seek, Read, plus the error values
  os.ErrNotExist, os.ErrInvalid, io.EOF and _errIsDirectory.
- The build half (assetfs.go): filepath.Walk over an input directory tree
  with (*tree).walkFunc as the visitor, followed by (*tree).writeMetadata,
  which together produce the data/meta/names triple the runtime consumes.

Modelling conventions:
- Go byte slices are List Nat (byte values); machine integers are Int or
  Nat (no arithmetic here ever approaches an overflow boundary).
- Go error values are constructors of GoErr; fallible functions return
  Except or pair an Option error, mirroring the Go signatures.
- Go maps (map[string]int, map[string]*dirInfo) are association lists with
  first-match lookup; the walk only ever inserts fresh keys, so this agrees
  with Go map semantics on the inputs that occur.
- A potentially panicking slice access in Open is made explicit by the
  OpenRes.oob outcome; theorems show it is unreachable on built indexes.
- The input directory tree is the mutual inductive FsTree/FsEntries; the
  OS-reported size of a file is a field of its own (walkFunc checks
  info.Size() from the stat data, and reads contents separately, exactly
  as the Go code does).
- filepath.Walk visits the root first and then each directory entry in
  sorted name order (readDirNames sorts with sort.Strings, i.e. bytewise
  string order, which on UTF-8 equals code-point order); this is modelled
  by sorting the tree with sortTree and flattening it into the visit
  sequence with visits.
-/

/-- Bytewise (code-point) comparison of character lists, modelling the
order sort.Strings uses on UTF-8 strings. -/
def listLeChars : List Char → List Char → Bool
  | [], _ => true
  | _ :: _, [] => false
  | a :: as, b :: bs =>
    if a.val < b.val then true
    else if b.val < a.val then false
    else listLeChars as bs

/-- Go string order: s <= t bytewise, as used by sort.Strings. -/
def nameLe (a b : String) : Bool := listLeChars a.data b.data

/-- Decidable equality for Except, needed to evaluate build results on
concrete inputs. -/
def exceptDecEq {ε α : Type} [DecidableEq ε] [DecidableEq α] :
    (a b : Except ε α) → Decidable (a = b)
  | .error e₁, .error e₂ =>
    match decEq e₁ e₂ with
    | isTrue h => isTrue (h ▸ rfl)
    | isFalse h => isFalse (fun hc => h (Except.error.inj hc))
  | .error _, .ok _ => isFalse (fun hc => Except.noConfusion hc)
  | .ok _, .error _ => isFalse (fun hc => Except.noConfusion hc)
  | .ok a₁, .ok a₂ =>
    match decEq a₁ a₂ with
    | isTrue h => isTrue (h ▸ rfl)
    | isFalse h => isFalse (fun hc => h (Except.ok.inj hc))

instance {ε α : Type} [DecidableEq ε] [DecidableEq α] : DecidableEq (Except ε α) :=
  exceptDecEq

/-- Go error values that the runtime half can return.  pathError models
os.PathError (Op, Path, wrapped error); the remaining constructors model
the distinct sentinel values os.ErrNotExist, os.ErrInvalid, io.EOF,
_errIsDirectory and the two errors bytes.Reader.Seek can build. -/
inductive GoErr where
  | notExist
  | pathError (op : String) (path : String) (err : GoErr)
  | invalid
  | eof
  | isDirectory
  | seekNegative
  | seekInvalidWhence
deriving DecidableEq, Repr, Inhabited

/-- Model of os.IsNotExist: unwraps a PathError and compares the underlying
error against os.ErrNotExist. -/
def isNotExistErr : GoErr → Bool
  | .notExist => true
  | .pathError _ _ e => isNotExistErr e
  | _ => false

/-- Embedding of _itemMetadata (template.go): one entry of the meta table.
Field order and zero values follow the Go struct: a file entry carries
size and an empty children list, a directory entry carries size 0 and its
children identity list. -/
structure ItemMetadata where
  name : String
  size : Int
  mode : Nat
  mtime : Int
  isDir : Bool
  children : List Nat
deriving DecidableEq, Repr, Inhabited

/-- Lookup into a meta table, modelling the Go slice access fs.meta[idx];
the default is never reached on indexes produced by the generator. -/
def metaAt (ms : List ItemMetadata) (i : Nat) : ItemMetadata := ms.getD i default

/-- Embedding of bytes.Reader: the byte slice and the current read index. -/
structure BytesReader where
  s : List Nat
  i : Int
deriving DecidableEq, Repr, Inhabited

/-- Embedding of bytes.Reader.Read with a destination buffer of length n:
returns the bytes copied and the error slot, plus the updated reader. -/
def BytesReader.readBytes (r : BytesReader) (n : Nat) :
    (List Nat × Option GoErr) × BytesReader :=
  if (r.s.length : Int) ≤ r.i then (([], some .eof), r)
  else
    let bytes := (r.s.drop r.i.toNat).take n
    ((bytes, none), { r with i := r.i + bytes.length })

/-- Embedding of bytes.Reader.Seek (whence 0 = start, 1 = current,
2 = end; any other whence and negative positions are errors, and the
reader is left unchanged on error). -/
def BytesReader.seek (r : BytesReader) (offset : Int) (whence : Int) :
    Except GoErr Int × BytesReader :=
  if whence = 0 then
    if offset < 0 then (.error .seekNegative, r)
    else (.ok offset, { r with i := offset })
  else if whence = 1 then
    if r.i + offset < 0 then (.error .seekNegative, r)
    else (.ok (r.i + offset), { r with i := r.i + offset })
  else if whence = 2 then
    if (r.s.length : Int) + offset < 0 then (.error .seekNegative, r)
    else (.ok ((r.s.length : Int) + offset), { r with i := (r.s.length : Int) + offset })
  else (.error .seekInvalidWhence, r)

/-- Embedding of _assetfs (template.go): data slices, meta table and the
names map (an association list standing for map[string]int). -/
structure Assetfs where
  data : List (List Nat)
  meta : List ItemMetadata
  names : List (String × Nat)
deriving DecidableEq, Repr, Inhabited

/-- Embedding of _assetFile: the handle returned by Open.  rd models the
*bytes.Reader field; on directory handles the Go field is nil and is never
dereferenced, which the embedding renders as an unused empty reader.
read is the Readdir cursor (entries already returned). -/
structure AssetFile where
  rd : BytesReader
  fi : ItemMetadata
  fsMeta : List ItemMetadata
  read : Nat
deriving DecidableEq, Repr, Inhabited

/-- Outcome of Open: a handle, a Go error, or an out-of-bounds slice
access (the Go code would panic; theorems show this is unreachable for
built indexes). -/
inductive OpenRes where
  | ok (f : AssetFile)
  | err (e : GoErr)
  | oob
deriving DecidableEq, Repr, Inhabited

/-- Splits a string at every slash character, modelling the segment
decomposition path.Clean performs. -/
def splitSlashAux : List Char → List Char → List String
  | [], acc => [String.mk acc.reverse]
  | c :: cs, acc =>
    if c = '/' then String.mk acc.reverse :: splitSlashAux cs []
    else splitSlashAux cs (c :: acc)

/-- Splits a string on slashes (strings.Split style; a leading slash
yields a leading empty segment). -/
def splitSlash (s : String) : List String := splitSlashAux s.data []

/-- Joins segments with slashes. -/
def joinSlash : List String → String
  | [] => ""
  | [s] => s
  | s :: rest => s ++ "/" ++ joinSlash rest

/-- Processes path segments like path.Clean does on a rooted path: empty
and dot segments vanish, dotdot pops the last kept segment (and is dropped
at the root). -/
def cleanSegsAux : List String → List String → List String
  | acc, [] => acc
  | acc, s :: rest =>
    if s = "" ∨ s = "." then cleanSegsAux acc rest
    else if s = ".." then cleanSegsAux acc.dropLast rest
    else cleanSegsAux (acc ++ [s]) rest

/-- Embedding of path.Clean restricted to rooted inputs, which is the only
way Open ever calls it (the argument is always "/" ++ name). -/
def pathClean (p : String) : String :=
  let segs := cleanSegsAux [] (splitSlash p)
  if segs.isEmpty then "/" else "/" ++ joinSlash segs

/-- Embedding of (*_assetfs).Open (template.go).  A nil receiver answers
with a PathError wrapping os.ErrNotExist; otherwise the name is cleaned,
looked up in the names map, and a handle is built, with the data slice
attached for non-directories. -/
def Assetfs.Open (fs? : Option Assetfs) (name : String) : OpenRes :=
  match fs? with
  | none => .err (.pathError "open" name .notExist)
  | some fs =>
    let nm := pathClean ("/" ++ name)
    match fs.names.lookup nm with
    | none => .err .notExist
    | some i =>
      match fs.meta[i]? with
      | none => .oob
      | some fi =>
        if fi.isDir then .ok { rd := ⟨[], 0⟩, fi := fi, fsMeta := fs.meta, read := 0 }
        else
          match fs.data[i]? with
          | none => .oob
          | some d => .ok { rd := ⟨d, 0⟩, fi := fi, fsMeta := fs.meta, read := 0 }

/-- Embedding of (*_assetFile).Close: returns nil and touches nothing. -/
def AssetFile.Close (af : AssetFile) : Option GoErr × AssetFile := (none, af)

/-- Embedding of (*_assetFile).Stat: returns the entry metadata verbatim. -/
def AssetFile.Stat (af : AssetFile) : Except GoErr ItemMetadata × AssetFile :=
  (.ok af.fi, af)

/-- Embedding of (*_assetFile).Readdir (template.go lines 75 to 102).
Non-directories fail with os.ErrInvalid.  count <= 0 returns all remaining
children, or nil with no error when exhausted.  count > 0 returns up to
count children and fails with io.EOF when exhausted.  The cursor advances
by the number of entries returned. -/
def AssetFile.Readdir (af : AssetFile) (count : Int) :
    Except GoErr (List ItemMetadata) × AssetFile :=
  if af.fi.isDir = false then (.error .invalid, af)
  else if count ≤ 0 then
    if af.fi.children.length ≤ af.read then (.ok [], af)
    else
      let out := (af.fi.children.drop af.read).map (metaAt af.fsMeta)
      (.ok out, { af with read := af.read + out.length })
  else
    if af.fi.children.length ≤ af.read then (.error .eof, af)
    else
      let out := ((af.fi.children.drop af.read).take count.toNat).map (metaAt af.fsMeta)
      (.ok out, { af with read := af.read + out.length })

/-- Embedding of (*_assetFile).Seek: directories fail with _errIsDirectory
before the reader is touched; files delegate to bytes.Reader.Seek. -/
def AssetFile.Seek (af : AssetFile) (offset : Int) (whence : Int) :
    Except GoErr Int × AssetFile :=
  if af.fi.isDir then (.error .isDirectory, af)
  else
    let sr := af.rd.seek offset whence
    (sr.1, { af with rd := sr.2 })

/-- Embedding of (*_assetFile).Read with a buffer of length n: directories
fail with _errIsDirectory before the reader is touched; files delegate to
bytes.Reader.Read. -/
def AssetFile.Read (af : AssetFile) (n : Nat) :
    (List Nat × Option GoErr) × AssetFile :=
  if af.fi.isDir then (([], some .isDirectory), af)
  else
    let rr := af.rd.readBytes n
    (rr.1, { af with rd := rr.2 })

/-- Repeatedly calls bounded Readdir, concatenating the successful batches
and stopping at the first error (or when the fuel runs out). -/
def drainBounded (k : Int) : Nat → AssetFile → List ItemMetadata
  | 0, _ => []
  | n + 1, af =>
    match af.Readdir k with
    | (.ok out, af2) => out ++ drainBounded k n af2
    | (.error _, _) => []

/- Input directory tree for the build half: a snapshot of the walked
filesystem.  size is the stat-reported byte size of a file (what
walkFunc checks against the ceiling); data is what reading the file
yields.  FsEntries is the children list of a directory. -/
mutual
inductive FsTree where
  | file (size : Int) (mode : Nat) (mtime : Int) (data : List Nat)
  | dir (mode : Nat) (mtime : Int) (entries : FsEntries)
deriving Inhabited
inductive FsEntries where
  | nil
  | cons (name : String) (t : FsTree) (rest : FsEntries)
deriving Inhabited
end

/-- Children list of a directory node as a plain list of pairs. -/
def FsEntries.pairs : FsEntries → List (String × FsTree)
  | .nil => []
  | .cons n t rest => (n, t) :: pairs rest

/-- Names of the immediate children, in order. -/
def FsEntries.keys : FsEntries → List String
  | .nil => []
  | .cons n _ rest => n :: keys rest

/-- Insertion step of sorting directory entries by name. -/
def FsEntries.insertByName (nm : String) (t : FsTree) : FsEntries → FsEntries
  | .nil => .cons nm t .nil
  | .cons n u rest =>
    if nameLe nm n then .cons nm t (.cons n u rest)
    else .cons n u (insertByName nm t rest)

/-- Sorts one directory level by name, modelling the sort.Strings call in
filepath.Walk via readDirNames. -/
def FsEntries.sortByName : FsEntries → FsEntries
  | .nil => .nil
  | .cons n t rest => insertByName n t (sortByName rest)

/- Recursively sorts every directory level of a tree by name, so that the
flattened visit sequence below matches the lexical visiting order of
filepath.Walk. -/
mutual
def sortTree : FsTree → FsTree
  | .file sz md mt d => .file sz md mt d
  | .dir md mt es => .dir md mt (FsEntries.sortByName (sortEnts es))
def sortEnts : FsEntries → FsEntries
  | .nil => .nil
  | .cons n t rest => .cons n (sortTree t) (sortEnts rest)
end

/-- Stat data handed to walkFunc for one visited entry, modelling
os.FileInfo (directories report size 0 here because the generator never
uses a directory size). -/
structure FileInfo where
  name : String
  size : Int
  mode : Nat
  mtime : Int
  isDir : Bool
deriving DecidableEq, Repr, Inhabited

/-- One visit of filepath.Walk: the path relative to the walk root (as
segments), the stat data, and the bytes ioutil.ReadFile would return. -/
structure VisitEntry where
  path : List String
  info : FileInfo
  data : List Nat
deriving DecidableEq, Repr, Inhabited

/- Preorder visit sequence of filepath.Walk over a (pre-sorted) tree:
the node itself first, then each child subtree in order. -/
mutual
def visits (path : List String) (nm : String) : FsTree → List VisitEntry
  | .file sz md mt dat => [⟨path, ⟨nm, sz, md, mt, false⟩, dat⟩]
  | .dir md mt es => ⟨path, ⟨nm, 0, md, mt, true⟩, []⟩ :: visitsE path es
def visitsE (base : List String) : FsEntries → List VisitEntry
  | .nil => []
  | .cons n t rest => visits (base ++ [n]) n t ++ visitsE base rest
end

/-- Embedding of the dirInfo record (assetfs.go): provisional child
indexes accumulated per directory. -/
structure DirInfo where
  files : List Nat
  subdirs : List Nat
deriving DecidableEq, Repr, Inhabited

/-- Embedding of the tree struct (assetfs.go) as the walk accumulates it:
emitted data slices, file and directory stat lists, the names map and the
dirData map (association lists standing for the Go maps, keyed by the
root-relative path segments). -/
structure TreeState where
  dataOut : List (List Nat)
  filesMeta : List FileInfo
  dirMeta : List FileInfo
  names : List (List String × Nat)
  dirData : List (List String × DirInfo)
deriving DecidableEq, Repr, Inhabited

/-- First-match association lookup, modelling Go map indexing (the walk
only inserts fresh keys, so first match is the only match). -/
def alookup {α β : Type} [DecidableEq α] (l : List (α × β)) (k : α) : Option β :=
  match l.find? (fun e => decide (e.1 = k)) with
  | some e => some e.2
  | none => none

/-- In-place update of one association entry, modelling mutation through
the *dirInfo pointer held in the Go map; absent keys are left alone,
matching the ok-guarded map access in walkFunc. -/
def aupdate {α β : Type} [DecidableEq α] (l : List (α × β)) (k : α) (f : β → β) :
    List (α × β) :=
  l.map (fun e => if e.1 = k then (e.1, f e.2) else e)

/-- Size ceiling from assetfs.go: const maxFileSize = 10 << 20. -/
def maxFileSize : Int := 10485760

/-- Message of the size-limit failure fmt.Errorf builds in walkFunc; the
path printed is the walk path (root joined with the relative segments). -/
def sizeErrMsg (root : String) (path : List String) : String :=
  "file \"" ++ joinSlash (root :: path) ++ "\" size exceeds max allowed size"

/-- Key of the parent directory in the dirData map: filepath.Dir of the
visited path.  For the root itself filepath.Dir leaves the walk, so no
dirData key matches, modelled as none. -/
def parentKey : List String → Option (List String)
  | [] => none
  | s :: rest => some ((s :: rest).dropLast)

/-- Embedding of (*tree).walkFunc (assetfs.go lines 220 to 249) applied to
one visit: directories get the next provisional directory index, a names
entry, a fresh dirData record and a subdirs link in their parent; files
beyond the size ceiling abort the build; accepted files get the next file
index, a names entry, a files link in their parent, and their contents are
emitted. -/
def walkFunc (root : String) (st : TreeState) (v : VisitEntry) :
    Except String TreeState :=
  if v.info.isDir then
    let idx := st.dirMeta.length
    let st1 : TreeState :=
      { st with
        dirMeta := st.dirMeta ++ [v.info],
        names := st.names ++ [(v.path, idx)],
        dirData := st.dirData ++ [(v.path, ⟨[], []⟩)] }
    match parentKey v.path with
    | none => .ok st1
    | some pk =>
      .ok { st1 with
              dirData := aupdate st1.dirData pk
                (fun d => { d with subdirs := d.subdirs ++ [idx] }) }
  else if maxFileSize < v.info.size then .error (sizeErrMsg root v.path)
  else
    let idx := st.filesMeta.length
    let st1 : TreeState :=
      { st with
        filesMeta := st.filesMeta ++ [v.info],
        names := st.names ++ [(v.path, idx)],
        dataOut := st.dataOut ++ [v.data] }
    match parentKey v.path with
    | none => .ok st1
    | some pk =>
      .ok { st1 with
              dirData := aupdate st1.dirData pk
                (fun d => { d with files := d.files ++ [idx] }) }

/-- Runs walkFunc over the visit sequence, stopping at the first error
exactly as filepath.Walk aborts when the visitor returns an error. -/
def runWalk (root : String) : List VisitEntry → TreeState → Except String TreeState
  | [], st => .ok st
  | v :: rest, st =>
    match walkFunc root st v with
    | .error e => .error e
    | .ok st1 => runWalk root rest st1

/-- Embedding of rootedName (assetfs.go): the walk path made root-relative
and rooted, with the walk root itself becoming "/". -/
def rootedName : List String → String
  | [] => "/"
  | s :: rest => "/" ++ joinSlash (s :: rest)

/-- Inverse index lookup idx2name built in writeMetadata: the name mapped
to a given identity, or the empty string when none is (Go zero value for
a missing map key). -/
def idx2nameOf (indexes : List (String × Nat)) (v : Nat) : String :=
  match indexes.find? (fun e => decide (e.2 = v)) with
  | some e => e.1
  | none => ""

/-- Embedding of (*tree).writeMetadata (assetfs.go lines 162 to 209) as
the index value it serializes: file stats first, then directory stats;
names values of directories shifted by the file count; each directory
entry carrying its files-then-shifted-subdirs children list, fetched
through idx2name and the subdir map exactly as the emitter does. -/
def writeMetadata (st : TreeState) : Assetfs :=
  let dirIdxShift := st.filesMeta.length
  let info := st.filesMeta ++ st.dirMeta
  let indexes : List (String × Nat) :=
    st.names.map (fun e =>
      (rootedName e.1,
       if (alookup st.dirData e.1).isSome then e.2 + dirIdxShift else e.2))
  let subdir : List (String × List Nat) :=
    st.dirData.map (fun e =>
      (rootedName e.1, e.2.files ++ e.2.subdirs.map (fun s => s + dirIdxShift)))
  let meta : List ItemMetadata :=
    (List.range info.length).map (fun i =>
      let fi := info.getD i default
      if fi.isDir then
        ⟨fi.name, 0, fi.mode, fi.mtime, true,
         (alookup subdir (idx2nameOf indexes i)).getD []⟩
      else ⟨fi.name, fi.size, fi.mode, fi.mtime, false, []⟩)
  ⟨st.dataOut, meta, indexes⟩

/-- Empty accumulator, as writeSection initializes the tree struct. -/
def initState : TreeState := ⟨[], [], [], [], []⟩

/-- The whole build for one asset directory: walk the sorted tree from the
root (whose FileInfo name is the base name of the root path; the model
uses the root string itself, which agrees for the slash-free directory
arguments the tool is invoked with) and serialize the metadata. -/
def build (root : String) (t : FsTree) : Except String Assetfs :=
  match runWalk root (visits [] root (sortTree t)) initState with
  | .error e => .error e
  | .ok st => .ok (writeMetadata st)

/-- Emitted names section (assetfs.go lines 203 to 209): one line per
identity i in increasing order, printing idx2name[i] and i. -/
def emitNames (indexes : List (String × Nat)) : List String :=
  (List.range indexes.length).map (fun i =>
    "\t\t\t\"" ++ idx2nameOf indexes i ++ "\": " ++ toString i ++ ",\n")

/- Well-formedness of an input tree: sibling names are distinct at every
level, which holds for every tree read off a real filesystem (a directory
cannot contain two equally named entries). -/
mutual
def wfB : FsTree → Bool
  | .file _ _ _ _ => true
  | .dir _ _ es => decide (FsEntries.keys es).Nodup && wfEntsB es
def wfEntsB : FsEntries → Bool
  | .nil => true
  | .cons _ t rest => wfB t && wfEntsB rest
end

/- Checks that every regular file in the tree is within the size ceiling. -/
mutual
def allSmallB : FsTree → Bool
  | .file sz _ _ _ => decide (sz ≤ maxFileSize)
  | .dir _ _ es => allSmallEntsB es
def allSmallEntsB : FsEntries → Bool
  | .nil => true
  | .cons _ t rest => allSmallB t && allSmallEntsB rest
end

/-- Membership of a named child in a children list. -/
inductive EntMem : String → FsTree → FsEntries → Prop where
  | head (nm : String) (t : FsTree) (rest : FsEntries) : EntMem nm t (.cons nm t rest)
  | tail (nm : String) (t : FsTree) (n : String) (u : FsTree) (rest : FsEntries) :
      EntMem nm t rest → EntMem nm t (.cons n u rest)

/-- The tree has, at the given relative path, a regular file whose stat
size exceeds the ceiling. -/
inductive HasBigAt : FsTree → List String → Prop where
  | here (sz : Int) (md : Nat) (mt : Int) (dat : List Nat) :
      maxFileSize < sz → HasBigAt (.file sz md mt dat) []
  | there (md : Nat) (mt : Int) (es : FsEntries) (nm : String) (t : FsTree)
      (rest : List String) :
      EntMem nm t es → HasBigAt t rest → HasBigAt (.dir md mt es) (nm :: rest)

/-- Children list of a directory node given by name order of FsEntries. -/
def entsOf : List (String × FsTree) → FsEntries
  | [] => .nil
  | (n, t) :: rest => .cons n t (entsOf rest)

/-- The hand-written sample instance of _assetFilesystems from
template.go lines 118 to 135: the "static" bundle. -/
def fsStatic : Assetfs :=
  { data := [[97, 98, 99], [99, 100, 101]],
    meta := [⟨"red", 3, 0o644, 0, false, []⟩,
             ⟨"green", 3, 0o644, 0, false, []⟩,
             ⟨"static", 0, 0o755, 0, true, [0, 1]⟩],
    names := [("/red", 0), ("/green", 1), ("/", 2)] }

/-- Embedding of the package-level _assetFilesystems map with the sample
bundle registered. -/
def assetFilesystems : List (String × Assetfs) := [("static", fsStatic)]

/-- Embedding of AssetDir: a map lookup whose miss is the nil *_assetfs. -/
def AssetDir (name : String) : Option Assetfs := (assetFilesystems.lookup name)

/-- A directory handle on the sample root, as Open "/" would build it. -/
def afStaticRoot : AssetFile :=
  { rd := ⟨[], 0⟩, fi := metaAt fsStatic.meta 2, fsMeta := fsStatic.meta, read := 0 }

/-- A file handle on the sample entry red, as Open "/red" would build it. -/
def afStaticRed : AssetFile :=
  { rd := ⟨[97, 98, 99], 0⟩, fi := metaAt fsStatic.meta 0,
    fsMeta := fsStatic.meta, read := 0 }

/-- A directory handle on a directory with no children. -/
def afEmptyDir : AssetFile :=
  { rd := ⟨[], 0⟩, fi := ⟨"empty", 0, 0o755, 0, true, []⟩, fsMeta := [], read := 0 }

/-- Input tree of the red/green scenario: files red ("abc") and green
("cde") directly under the root. -/
def treeRG : FsTree :=
  .dir 0o755 0 (entsOf
    [("red", .file 3 0o644 0 [97, 98, 99]),
     ("green", .file 3 0o644 0 [99, 100, 101])])

/-- The index the build actually produces for the red/green scenario. -/
def fsRG : Assetfs := ((build "static" treeRG).toOption).getD default

/-- The handle Open "/red" builds on the built red/green index. -/
def afRGRed : AssetFile :=
  { rd := ⟨[97, 98, 99], 0⟩, fi := metaAt fsRG.meta 1, fsMeta := fsRG.meta, read := 0 }

/-- The handle Open "/" builds on the built red/green index. -/
def afRGRoot : AssetFile :=
  { rd := ⟨[], 0⟩, fi := metaAt fsRG.meta 2, fsMeta := fsRG.meta, read := 0 }

/-- Tree whose file and directory names interleave lexically: files a and
c, directories b and d. -/
def treeInterleaved : FsTree :=
  .dir 0o755 0 (entsOf
    [("a", .file 1 0o644 0 [65]),
     ("b", .dir 0o755 0 (entsOf [])),
     ("c", .file 1 0o644 0 [67]),
     ("d", .dir 0o755 0 (entsOf []))])

/-- The index built from the interleaved tree. -/
def fsInter : Assetfs := ((build "assets" treeInterleaved).toOption).getD default

/-- Tree containing an 11 MiB file (stat size 11534336). -/
def treeBig : FsTree :=
  .dir 0o755 0 (entsOf
    [("big.bin", .file 11534336 0o644 0 []),
     ("ok.txt", .file 3 0o644 0 [65, 66, 67])])

/-- Tree containing a file of stat size exactly 10 MiB (10485760). -/
def treeMaxOk : FsTree :=
  .dir 0o755 0 (entsOf [("exact.bin", .file 10485760 0o644 0 [])])

/-- Walk-state invariant behind the children-layout theorem: the emitted
data slices track the file stats one to one, and every dirData record
holds strictly increasing provisional indexes bounded by the current
file and directory counts. -/
def DirsGoodSt (st : TreeState) : Prop :=
  st.dataOut.length = st.filesMeta.length ∧
  ∀ e ∈ st.dirData,
    (e.2.files.Pairwise (fun a b => a < b) ∧
     (∀ a ∈ e.2.files, a < st.filesMeta.length) ∧
     e.2.subdirs.Pairwise (fun a b => a < b) ∧
     (∀ b ∈ e.2.subdirs, b < st.dirMeta.length))

/-- Walk-state invariant behind the identity-layout theorem: data slices
track file stats, file stats are file stats and directory stats are
directory stats, every names entry is in range for its kind (keyed by
whether its path owns a dirData record), and every dirData key has a
names entry. -/
def NamesGoodSt (st : TreeState) : Prop :=
  st.dataOut.length = st.filesMeta.length ∧
  (∀ fi ∈ st.filesMeta, fi.isDir = false) ∧
  (∀ fi ∈ st.dirMeta, fi.isDir = true) ∧
  (∀ e ∈ st.names,
    ((alookup st.dirData e.1).isSome = true → e.2 < st.dirMeta.length) ∧
    ((alookup st.dirData e.1).isSome = false → e.2 < st.filesMeta.length)) ∧
  (∀ p, (alookup st.dirData p).isSome = true → ∃ i, (p, i) ∈ st.names)

/-! Helper lemmas about the runtime operations. -/

theorem Readdir_notDir (af : AssetFile) (h : af.fi.isDir = false) (c : Int) :
    af.Readdir c = (.error .invalid, af) := by
  simp [AssetFile.Readdir, h]

theorem Readdir_unbounded_done (af : AssetFile) (h : af.fi.isDir = true)
    (hc : c ≤ 0) (hr : af.fi.children.length ≤ af.read) :
    af.Readdir c = (.ok [], af) := by
  simp [AssetFile.Readdir, h, hc, hr]

theorem Readdir_unbounded_rest (af : AssetFile) (h : af.fi.isDir = true)
    (hc : c ≤ 0) (hr : af.read < af.fi.children.length) :
    af.Readdir c =
      (.ok ((af.fi.children.drop af.read).map (metaAt af.fsMeta)),
       { af with read := af.fi.children.length }) := by
  have hr2 : ¬ af.fi.children.length ≤ af.read := by omega
  simp [AssetFile.Readdir, h, hc, hr2, List.length_drop]
  omega

theorem Readdir_bounded_eof (af : AssetFile) (h : af.fi.isDir = true)
    (hc : 0 < c) (hr : af.fi.children.length ≤ af.read) :
    af.Readdir c = (.error .eof, af) := by
  have hc2 : ¬ c ≤ 0 := by omega
  simp [AssetFile.Readdir, h, hc2, hr]

theorem Readdir_bounded_step (af : AssetFile) (h : af.fi.isDir = true)
    (hc : 0 < c) (hr : af.read < af.fi.children.length) :
    af.Readdir c =
      (.ok (((af.fi.children.drop af.read).take c.toNat).map (metaAt af.fsMeta)),
       { af with read := af.read + min c.toNat (af.fi.children.length - af.read) }) := by
  have hc2 : ¬ c ≤ 0 := by omega
  have hr2 : ¬ af.fi.children.length ≤ af.read := by omega
  simp [AssetFile.Readdir, h, hc2, hr2, List.length_take, List.length_drop]

theorem drop_min_len {α : Type} (s : List α) (n : Nat) :
    s.drop (min n s.length) = s.drop n := by
  by_cases h : n ≤ s.length
  · rw [min_eq_left h]
  · push_neg at h
    rw [min_eq_right (by omega), List.drop_eq_nil_of_le (le_refl _),
        List.drop_eq_nil_of_le (by omega)]

theorem drainBounded_spec :
    ∀ (fuel : Nat) (af : AssetFile) (k : Int), af.fi.isDir = true → 0 < k →
      af.fi.children.length - af.read ≤ fuel →
      drainBounded k fuel af = (af.fi.children.drop af.read).map (metaAt af.fsMeta) := by
  intro fuel
  induction fuel with
  | zero =>
      intro af k hdir hk hfuel
      have : af.fi.children.length ≤ af.read := by omega
      rw [List.drop_eq_nil_of_le this]
      rfl
  | succ n ih =>
      intro af k hdir hk hfuel
      by_cases hr : af.fi.children.length ≤ af.read
      · rw [List.drop_eq_nil_of_le hr]
        simp [drainBounded, Readdir_bounded_eof af hdir hk hr]
      · push_neg at hr
        have hstep := Readdir_bounded_step af hdir hk hr
        simp only [drainBounded, hstep]
        have hk1 : 1 ≤ k.toNat := by omega
        have hfuel2 : (({ af with read := (af.read +
            min k.toNat (af.fi.children.length - af.read)) } : AssetFile)).fi.children.length -
            ({ af with read := (af.read +
              min k.toNat (af.fi.children.length - af.read)) } : AssetFile).read ≤ n := by
          show af.fi.children.length -
            (af.read + min k.toNat (af.fi.children.length - af.read)) ≤ n
          omega
        have ihr := ih ({ af with read := (af.read +
            min k.toNat (af.fi.children.length - af.read)) } : AssetFile) k hdir hk hfuel2
        rw [ihr]
        rw [← List.drop_drop]
        have h2 : min k.toNat (af.fi.children.length - af.read) =
            min k.toNat (af.fi.children.drop af.read).length := by
          rw [List.length_drop]
        rw [h2, drop_min_len, ← List.map_append, List.take_append_drop]

/-- C1: once the listing cursor is at or past the end of the children of a
directory handle, bounded Readdir (count > 0) fails with io.EOF while
unbounded Readdir (count <= 0) returns an empty result with no error, both
leaving the handle unchanged; on a childless directory this holds already
for the very first calls (see the witness). -/
theorem c1_exhausted_listing (af : AssetFile) (hdir : af.fi.isDir = true)
    (hend : af.fi.children.length ≤ af.read) :
    (∀ count : Int, 0 < count → af.Readdir count = (.error .eof, af)) ∧
    (∀ count : Int, count ≤ 0 → af.Readdir count = (.ok [], af)) :=
  ⟨fun _ hc => Readdir_bounded_eof af hdir hc hend,
   fun _ hc => Readdir_unbounded_done af hdir hc hend⟩

/-- Witness for C1 at a concrete childless directory handle. -/
theorem c1_witness :
    afEmptyDir.Readdir 1 = (.error .eof, afEmptyDir) ∧
    afEmptyDir.Readdir 0 = (.ok [], afEmptyDir) :=
  ⟨(c1_exhausted_listing afEmptyDir (by decide) (by decide)).1 1 (by decide),
   (c1_exhausted_listing afEmptyDir (by decide) (by decide)).2 0 (by decide)⟩

/-- C2: bounded listing pagination is complete and exact.  Before
exhaustion a bounded Readdir k returns exactly the next
min(k, remaining) children starting at the cursor and advances the
cursor by that number; draining with any k > 0 concatenates to exactly
the remaining children resolved through the meta table (and for a fresh
handle that is the whole children sequence); after the drain the next
bounded call fails with io.EOF; a single unbounded call on a fresh
handle also returns exactly the children sequence. -/
theorem c2_bounded_pagination (af : AssetFile) (hdir : af.fi.isDir = true) :
    (∀ k : Int, 0 < k → af.read < af.fi.children.length →
      af.Readdir k =
        (.ok (((af.fi.children.drop af.read).take k.toNat).map (metaAt af.fsMeta)),
         { af with read := af.read + min k.toNat (af.fi.children.length - af.read) })) ∧
    (∀ k : Int, 0 < k → ∀ fuel, af.fi.children.length - af.read ≤ fuel →
      drainBounded k fuel af = (af.fi.children.drop af.read).map (metaAt af.fsMeta)) ∧
    (∀ k : Int, 0 < k → af.fi.children.length ≤ af.read →
      (af.Readdir k).1 = .error .eof) ∧
    (af.read = 0 → (af.Readdir 0).1 = .ok (af.fi.children.map (metaAt af.fsMeta))) := by
  refine ⟨fun k hk hr => Readdir_bounded_step af hdir hk hr,
          fun k hk fuel hf => drainBounded_spec fuel af k hdir hk hf,
          fun k hk hr => by rw [Readdir_bounded_eof af hdir hk hr],
          fun h0 => ?_⟩
  by_cases hr : af.fi.children.length ≤ af.read
  · have hnil : af.fi.children = [] := List.eq_nil_of_length_eq_zero (by omega)
    rw [Readdir_unbounded_done af hdir (by omega) hr, hnil]
    rfl
  · push_neg at hr
    rw [Readdir_unbounded_rest af hdir (by omega) hr, h0]
    rfl

/-- Witness for C2 on the sample root handle (children 0 and 1). -/
theorem c2_witness :
    afStaticRoot.Readdir 1 =
      (.ok (((afStaticRoot.fi.children.drop afStaticRoot.read).take (1 : Int).toNat).map
        (metaAt afStaticRoot.fsMeta)),
       { afStaticRoot with read := (afStaticRoot.read +
           min (1 : Int).toNat (afStaticRoot.fi.children.length - afStaticRoot.read)) }) ∧
    drainBounded 1 3 afStaticRoot =
      (afStaticRoot.fi.children.drop afStaticRoot.read).map (metaAt afStaticRoot.fsMeta) ∧
    (afStaticRoot.Readdir 0).1 = .ok (afStaticRoot.fi.children.map (metaAt afStaticRoot.fsMeta)) :=
  ⟨(c2_bounded_pagination afStaticRoot (by decide)).1 1 (by decide) (by decide),
   (c2_bounded_pagination afStaticRoot (by decide)).2.1 1 (by decide) 3 (by decide),
   (c2_bounded_pagination afStaticRoot (by decide)).2.2.2 (by decide)⟩

/-- C7: on a directory handle Read and Seek always fail with the
is-a-directory error and leave the handle unchanged; on a file handle
Readdir always fails with os.ErrInvalid and leaves the handle unchanged;
and the four sentinel errors (is-a-directory, invalid operation,
not-exist, end-of-stream) are pairwise distinct values. -/
theorem c7_variant_errors (af : AssetFile) :
    (af.fi.isDir = true →
      (∀ n : Nat, af.Read n = (([], some .isDirectory), af)) ∧
      (∀ off whence : Int, af.Seek off whence = (.error .isDirectory, af))) ∧
    (af.fi.isDir = false →
      ∀ count : Int, af.Readdir count = (.error .invalid, af)) ∧
    (GoErr.isDirectory ≠ GoErr.invalid ∧ GoErr.isDirectory ≠ GoErr.notExist ∧
     GoErr.isDirectory ≠ GoErr.eof ∧ GoErr.invalid ≠ GoErr.notExist ∧
     GoErr.invalid ≠ GoErr.eof ∧ GoErr.notExist ≠ GoErr.eof) := by
  refine ⟨fun h => ⟨fun n => ?_, fun off whence => ?_⟩,
          fun h count => Readdir_notDir af h count, by decide⟩
  · simp [AssetFile.Read, h]
  · simp [AssetFile.Seek, h]

/-- Witness for C7 at a concrete directory handle and file handle. -/
theorem c7_witness :
    afStaticRoot.Read 4 = (([], some .isDirectory), afStaticRoot) ∧
    afStaticRoot.Seek 1 0 = (.error .isDirectory, afStaticRoot) ∧
    afStaticRed.Readdir 2 = (.error .invalid, afStaticRed) :=
  ⟨((c7_variant_errors afStaticRoot).1 (by decide)).1 4,
   ((c7_variant_errors afStaticRoot).1 (by decide)).2 1 0,
   (c7_variant_errors afStaticRed).2.1 (by decide) 2⟩

/-- C10: Close always returns nil and leaves the handle (cursor state
included) untouched, so every later Read, Seek, Stat or Readdir call
behaves exactly as if Close had never been called. -/
theorem c10_close_is_noop (af : AssetFile) :
    af.Close = (none, af) ∧
    (∀ n : Nat, (af.Close).2.Read n = af.Read n) ∧
    (∀ off whence : Int, (af.Close).2.Seek off whence = af.Seek off whence) ∧
    ((af.Close).2.Stat = af.Stat) ∧
    (∀ count : Int, (af.Close).2.Readdir count = af.Readdir count) :=
  ⟨rfl, fun _ => rfl, fun _ _ => rfl, rfl, fun _ => rfl⟩

/-- C6 counterexample: the two not-found failures are not the same error
value.  Open on the nil filesystem wraps os.ErrNotExist in a PathError
carrying the raw name, while Open on a valid filesystem for an absent
path returns bare os.ErrNotExist. -/
theorem c6_counterexample :
    Assetfs.Open none "x" ≠ Assetfs.Open (some fsStatic) "x" ∧
    Assetfs.Open none "x" = .err (.pathError "open" "x" .notExist) ∧
    Assetfs.Open (some fsStatic) "x" = .err .notExist := by
  refine ⟨by decide, rfl, by decide⟩

/-- C6 (amended): Open on a nil filesystem and Open on a valid filesystem
for an absent path each return a failure that the standard not-found test
(os.IsNotExist) accepts, though the error values differ (the nil case is
a PathError wrapping os.ErrNotExist and naming the raw queried path, the
absent-path case is bare os.ErrNotExist); neither case crashes, and in
the non-nil case the looked-up key is the normalized path
path.Clean of "/" ++ name. -/
theorem c6_notfound_uniformity (name : String) (fs : Assetfs)
    (habs : fs.names.lookup (pathClean ("/" ++ name)) = none) :
    Assetfs.Open none name = .err (.pathError "open" name .notExist) ∧
    Assetfs.Open (some fs) name = .err .notExist ∧
    (∃ e, Assetfs.Open none name = .err e ∧ isNotExistErr e = true) ∧
    (∃ e, Assetfs.Open (some fs) name = .err e ∧ isNotExistErr e = true) ∧
    Assetfs.Open none name ≠ .oob ∧ Assetfs.Open (some fs) name ≠ .oob := by
  have h2 : Assetfs.Open (some fs) name = .err .notExist := by
    simp [Assetfs.Open, habs]
  exact ⟨rfl, h2, ⟨_, rfl, rfl⟩, ⟨_, h2, rfl⟩, by simp [Assetfs.Open],
         by rw [h2]; simp⟩

/-- Witness for C6 (amended) at the concrete absent path x on the sample
bundle. -/
theorem c6_witness :
    Assetfs.Open none "x" = .err (.pathError "open" "x" .notExist) ∧
    Assetfs.Open (some fsStatic) "x" = .err .notExist ∧
    (∃ e, Assetfs.Open none "x" = .err e ∧ isNotExistErr e = true) ∧
    (∃ e, Assetfs.Open (some fsStatic) "x" = .err e ∧ isNotExistErr e = true) ∧
    Assetfs.Open none "x" ≠ .oob ∧ Assetfs.Open (some fsStatic) "x" ≠ .oob :=
  c6_notfound_uniformity "x" fsStatic (by decide)

/-- C4 counterexample: building from the red/green tree does not give
red identity 0 — filepath.Walk visits entries in lexical order, so green
is visited first and the built names map sends green to 0 and red to 1,
contradicting the claimed pathToIdentity. -/
theorem c4_counterexample :
    build "static" treeRG = .ok fsRG ∧
    fsRG.names.lookup "/red" = some 1 ∧
    fsRG.names.lookup "/green" = some 0 ∧
    ¬ fsRG.names.lookup "/red" = some 0 := by
  refine ⟨by decide, by decide, by decide, by decide⟩

/-- C4 (amended): building from the red/green tree produces two file
entries with identities in lexical visit order (green 0, red 1) and one
root directory entry of identity 2 with children 0 then 1; pathToIdentity
maps the root to 2, green to 0 and red to 1; opening "/red" and reading
yields exactly the three bytes of "abc" (the next read hits end of
stream); and opening "/" then listing unbounded returns the entry named
"green" followed by the entry named "red". -/
theorem c4_build_scenario :
    build "static" treeRG = .ok fsRG ∧
    fsRG.names = [("/", 2), ("/green", 0), ("/red", 1)] ∧
    fsRG.meta = [⟨"green", 3, 0o644, 0, false, []⟩,
                 ⟨"red", 3, 0o644, 0, false, []⟩,
                 ⟨"static", 0, 0o755, 0, true, [0, 1]⟩] ∧
    fsRG.data = [[99, 100, 101], [97, 98, 99]] ∧
    Assetfs.Open (some fsRG) "/red" = .ok afRGRed ∧
    (afRGRed.Read 10).1 = ([97, 98, 99], none) ∧
    (((afRGRed.Read 10).2).Read 10).1 = ([], some .eof) ∧
    Assetfs.Open (some fsRG) "/" = .ok afRGRoot ∧
    (afRGRoot.Readdir 0).1 = .ok [metaAt fsRG.meta 0, metaAt fsRG.meta 1] ∧
    (metaAt fsRG.meta 0).name = "green" ∧ (metaAt fsRG.meta 1).name = "red" := by
  refine ⟨by decide, by decide, by decide, by decide, by decide, by decide,
          by decide, by decide, by decide, by decide, by decide⟩

/-! Helper lemmas for the emitted names section. -/

theorem pair_eq_of_snd_eq {l : List (String × Nat)}
    (hn : (l.map Prod.snd).Nodup) {a b : String × Nat}
    (ha : a ∈ l) (hb : b ∈ l) (hv : a.2 = b.2) : a = b :=
  List.inj_on_of_nodup_map hn ha hb hv

theorem idx2nameOf_perm (l₁ l₂ : List (String × Nat)) (hp : l₁.Perm l₂)
    (hn : (l₁.map Prod.snd).Nodup) (v : Nat) :
    idx2nameOf l₁ v = idx2nameOf l₂ v := by
  unfold idx2nameOf
  cases hfind : l₁.find? (fun e => decide (e.2 = v)) with
  | none =>
      cases hfind2 : l₂.find? (fun e => decide (e.2 = v)) with
      | none => rfl
      | some e =>
          have he : e ∈ l₁ := hp.mem_iff.mpr (List.mem_of_find?_eq_some hfind2)
          have hpe := List.find?_some hfind2
          have := (List.find?_eq_none.mp hfind) e he
          simp at hpe this
          exact absurd hpe this
  | some e =>
      have he1 : e ∈ l₁ := List.mem_of_find?_eq_some hfind
      have hv1 : e.2 = v := by simpa using List.find?_some hfind
      cases hfind2 : l₂.find? (fun e => decide (e.2 = v)) with
      | none =>
          have := (List.find?_eq_none.mp hfind2) e (hp.mem_iff.mp he1)
          simp [hv1] at this
      | some e2 =>
          have he2 : e2 ∈ l₁ := hp.mem_iff.mpr (List.mem_of_find?_eq_some hfind2)
          have hv2 : e2.2 = v := by simpa using List.find?_some hfind2
          have : e = e2 := pair_eq_of_snd_eq hn he1 he2 (by rw [hv1, hv2])
          rw [this]

/-- C8: the emitted pathToIdentity section is written in a stable order
(one line per identity, in increasing identity order), so it does not
depend on the iteration order of the underlying Go map: any two
enumeration orders of the same name-to-identity map produce identical
emitted lines.  The build itself is a pure function of the input tree in
this embedding, so running it twice on the same input trivially yields
identical output. -/
theorem c8_deterministic_emit (l₁ l₂ : List (String × Nat))
    (hp : l₁.Perm l₂) (hn : (l₁.map Prod.snd).Nodup) :
    emitNames l₁ = emitNames l₂ ∧ ∀ root t, build root t = build root t := by
  constructor
  · unfold emitNames
    rw [hp.length_eq]
    exact List.map_congr_left (fun i _ => by rw [idx2nameOf_perm l₁ l₂ hp hn i])
  · intro root t
    rfl

/-- Witness for C8 on two enumeration orders of a concrete two-entry map. -/
theorem c8_witness :
    emitNames [("/a", 0), ("/b", 1)] = emitNames [("/b", 1), ("/a", 0)] ∧
    ∀ root t, build root t = build root t :=
  c8_deterministic_emit [("/a", 0), ("/b", 1)] [("/b", 1), ("/a", 0)]
    (by decide) (by decide)

/-! Helper lemmas about association lists (the Go map model). -/

theorem alookup_nil {α β : Type} [DecidableEq α] (k : α) :
    alookup ([] : List (α × β)) k = none := rfl

theorem alookup_cons {α β : Type} [DecidableEq α] (e : α × β) (l : List (α × β)) (k : α) :
    alookup (e :: l) k = if e.1 = k then some e.2 else alookup l k := by
  unfold alookup
  by_cases h : e.1 = k
  · rw [List.find?_cons_of_pos _ (by simpa using h), if_pos h]
  · rw [List.find?_cons_of_neg _ (by simpa using h), if_neg h]

theorem alookup_isSome_keys {α β : Type} [DecidableEq α] (l : List (α × β)) (k : α) :
    (alookup l k).isSome = true ↔ k ∈ l.map Prod.fst := by
  induction l with
  | nil => simp [alookup_nil]
  | cons e es ih =>
      rw [alookup_cons]
      by_cases h : e.1 = k
      · simp [h]
      · simp only [if_neg h, List.map_cons, List.mem_cons, ih]
        constructor
        · exact fun hm => Or.inr hm
        · rintro (hm | hm)
          · exact absurd hm.symm h
          · exact hm

theorem alookup_mem {α β : Type} [DecidableEq α] {l : List (α × β)} {k : α} {v : β}
    (h : alookup l k = some v) : (k, v) ∈ l := by
  induction l with
  | nil => cases h
  | cons e es ih =>
      rw [alookup_cons] at h
      by_cases he : e.1 = k
      · rw [if_pos he] at h
        injection h with hv2
        cases e with
        | mk a b =>
            simp only at he hv2
            subst he
            subst hv2
            exact List.mem_cons_self _ _
      · rw [if_neg he] at h
        exact List.mem_cons_of_mem _ (ih h)

theorem aupdate_keys {α β : Type} [DecidableEq α] (l : List (α × β)) (k : α) (f : β → β) :
    (aupdate l k f).map Prod.fst = l.map Prod.fst := by
  unfold aupdate
  rw [List.map_map]
  apply List.map_congr_left
  intro e _
  by_cases h : e.1 = k <;> simp [h]

theorem alookup_aupdate_isSome {α β : Type} [DecidableEq α] (l : List (α × β))
    (k k' : α) (f : β → β) :
    ((alookup (aupdate l k f) k').isSome = true) ↔ ((alookup l k').isSome = true) := by
  rw [alookup_isSome_keys, alookup_isSome_keys, aupdate_keys]

theorem mem_aupdate {α β : Type} [DecidableEq α] {l : List (α × β)} {k : α}
    {f : β → β} {e : α × β} (h : e ∈ aupdate l k f) :
    e ∈ l ∨ ∃ d, (k, d) ∈ l ∧ e = (k, f d) := by
  unfold aupdate at h
  rcases List.mem_map.mp h with ⟨a, ha, hae⟩
  by_cases hk : a.1 = k
  · right
    refine ⟨a.2, ?_, ?_⟩
    · rw [← hk]
      exact ha
    · rw [← hae, if_pos hk, hk]
  · left
    rw [← hae, if_neg hk]
    exact ha

theorem lookup_pair_mem {α β : Type} [BEq α] [LawfulBEq α] {l : List (α × β)}
    {k : α} {v : β} (h : List.lookup k l = some v) : (k, v) ∈ l := by
  induction l with
  | nil => cases h
  | cons e es ih =>
      cases e with
      | mk a b =>
          by_cases hk : k == a
          · simp only [List.lookup, hk] at h
            cases h
            have : k = a := by simpa using hk
            rw [this]
            exact List.mem_cons_self _ _
          · simp only [List.lookup, Bool.of_not_eq_true hk] at h
            exact List.mem_cons_of_mem _ (ih h)

theorem pairwise_bound_snoc {l : List Nat} {n : Nat}
    (hp : l.Pairwise (fun a b => a < b)) (hb : ∀ a ∈ l, a < n) :
    (l ++ [n]).Pairwise (fun a b => a < b) ∧ ∀ a ∈ l ++ [n], a < n + 1 := by
  constructor
  · rw [List.pairwise_append]
    refine ⟨hp, List.pairwise_singleton _ _, fun a ha b hb2 => ?_⟩
    simp at hb2
    subst hb2
    exact hb a ha
  · intro a ha
    rcases List.mem_append.mp ha with h | h
    · exact Nat.lt_succ_of_lt (hb a h)
    · simp at h
      omega

/-! Case analysis of one walkFunc step. -/

theorem walkFunc_cases {root : String} {st : TreeState} {v : VisitEntry}
    {st' : TreeState} (h : walkFunc root st v = .ok st') :
    (v.info.isDir = true ∧ ∃ upd,
      st' = { st with dirMeta := st.dirMeta ++ [v.info],
                      names := st.names ++ [(v.path, st.dirMeta.length)],
                      dirData := upd } ∧
      (upd = st.dirData ++ [(v.path, ⟨[], []⟩)] ∨
       ∃ pk, parentKey v.path = some pk ∧
         upd = aupdate (st.dirData ++ [(v.path, ⟨[], []⟩)]) pk
           (fun d => { d with subdirs := d.subdirs ++ [st.dirMeta.length] }))) ∨
    (v.info.isDir = false ∧ v.info.size ≤ maxFileSize ∧ ∃ upd,
      st' = { st with filesMeta := st.filesMeta ++ [v.info],
                      names := st.names ++ [(v.path, st.filesMeta.length)],
                      dataOut := st.dataOut ++ [v.data],
                      dirData := upd } ∧
      (upd = st.dirData ∨
       ∃ pk, parentKey v.path = some pk ∧
         upd = aupdate st.dirData pk
           (fun d => { d with files := d.files ++ [st.filesMeta.length] }))) := by
  by_cases hd : v.info.isDir
  · left
    refine ⟨hd, ?_⟩
    rcases hv : v.path with _ | ⟨s, rest⟩
    · simp only [walkFunc, hd, if_true, hv, parentKey, Except.ok.injEq] at h
      subst h
      exact ⟨_, rfl, Or.inl rfl⟩
    · simp only [walkFunc, hd, if_true, hv, parentKey, Except.ok.injEq] at h
      subst h
      exact ⟨_, rfl, Or.inr ⟨(s :: rest).dropLast, rfl, rfl⟩⟩
  · right
    have hd2 : v.info.isDir = false := by simpa using hd
    refine ⟨hd2, ?_⟩
    by_cases hsz : maxFileSize < v.info.size
    · simp only [walkFunc, hd2, if_false, Bool.false_eq_true, hsz, if_true] at h
      exact Except.noConfusion h
    · refine ⟨by omega, ?_⟩
      rcases hv : v.path with _ | ⟨s, rest⟩
      · simp only [walkFunc, hd2, Bool.false_eq_true, if_false, hsz, hv, parentKey,
                   Except.ok.injEq] at h
        subst h
        exact ⟨_, rfl, Or.inl rfl⟩
      · simp only [walkFunc, hd2, Bool.false_eq_true, if_false, hsz, hv, parentKey,
                   Except.ok.injEq] at h
        subst h
        exact ⟨_, rfl, Or.inr ⟨(s :: rest).dropLast, rfl, rfl⟩⟩

/-! Preservation of the children-layout invariant along the walk. -/

theorem walkFunc_dirsGood {root : String} {st : TreeState} {v : VisitEntry}
    {st' : TreeState} (h : walkFunc root st v = .ok st') (hg : DirsGoodSt st) :
    DirsGoodSt st' := by
  obtain ⟨hlen, hent⟩ := hg
  rcases walkFunc_cases h with ⟨hd, upd, rfl, hupd⟩ | ⟨hd, hsz, upd, rfl, hupd⟩
  · -- directory step: dirMeta grows by one, filesMeta and dataOut unchanged
    have hdm : (st.dirMeta ++ [v.info]).length = st.dirMeta.length + 1 := by simp
    have hbase : ∀ e2 ∈ st.dirData ++ [(v.path, (⟨[], []⟩ : DirInfo))],
        (e2.2.files.Pairwise (fun a b => a < b) ∧
         (∀ a ∈ e2.2.files, a < st.filesMeta.length) ∧
         e2.2.subdirs.Pairwise (fun a b => a < b) ∧
         (∀ b ∈ e2.2.subdirs, b < st.dirMeta.length + 1)) := by
      intro e2 he2
      rcases List.mem_append.mp he2 with h2 | h2
      · obtain ⟨p1, p2, p3, p4⟩ := hent e2 h2
        exact ⟨p1, p2, p3, fun b hb => Nat.lt_succ_of_lt (p4 b hb)⟩
      · simp only [List.mem_singleton] at h2
        rw [h2]
        exact ⟨List.Pairwise.nil, by simp, List.Pairwise.nil, by simp⟩
    refine ⟨hlen, ?_⟩
    intro e he
    dsimp only at he ⊢
    rw [hdm]
    rcases hupd with rfl | ⟨pk, hpk, rfl⟩
    · exact hbase e he
    · rcases mem_aupdate he with h2 | ⟨d, hd2, rfl⟩
      · exact hbase e h2
      · rcases List.mem_append.mp hd2 with h2 | h2
        · obtain ⟨p1, p2, p3, p4⟩ := hent _ h2
          obtain ⟨q1, q2⟩ := pairwise_bound_snoc p3 p4
          exact ⟨p1, p2, q1, q2⟩
        · simp only [List.mem_singleton] at h2
          have hd3 : d = ⟨[], []⟩ := congrArg Prod.snd h2
          rw [hd3]
          refine ⟨List.Pairwise.nil, by simp, ?_, ?_⟩
          · simp
          · intro b hb
            simp at hb
            omega
  · -- file step: filesMeta and dataOut grow by one, dirMeta unchanged
    have hfm : (st.filesMeta ++ [v.info]).length = st.filesMeta.length + 1 := by simp
    refine ⟨by simp [hlen], ?_⟩
    intro e he
    dsimp only at he ⊢
    rw [hfm]
    rcases hupd with rfl | ⟨pk, hpk, rfl⟩
    · obtain ⟨p1, p2, p3, p4⟩ := hent e he
      exact ⟨p1, fun a ha => Nat.lt_succ_of_lt (p2 a ha), p3, p4⟩
    · rcases mem_aupdate he with h2 | ⟨d, hd2, rfl⟩
      · obtain ⟨p1, p2, p3, p4⟩ := hent e h2
        exact ⟨p1, fun a ha => Nat.lt_succ_of_lt (p2 a ha), p3, p4⟩
      · obtain ⟨p1, p2, p3, p4⟩ := hent _ hd2
        obtain ⟨q1, q2⟩ := pairwise_bound_snoc p1 p2
        exact ⟨q1, q2, p3, p4⟩

theorem runWalk_dirsGood : ∀ (vs : List VisitEntry) (st st' : TreeState) (root : String),
    runWalk root vs st = .ok st' → DirsGoodSt st → DirsGoodSt st' := by
  intro vs
  induction vs with
  | nil =>
      intro st st' root h hg
      injection h with h2
      rw [← h2]
      exact hg
  | cons v rest ih =>
      intro st st' root h hg
      rw [runWalk] at h
      cases hw : walkFunc root st v with
      | error e => rw [hw] at h; cases h
      | ok st1 =>
          rw [hw] at h
          exact ih st1 st' root h (walkFunc_dirsGood hw hg)

theorem initState_dirsGood : DirsGoodSt initState := by
  refine ⟨rfl, ?_⟩
  intro e he
  cases he

/-! Shape of the entries writeMetadata serializes. -/

theorem writeMetadata_data (st : TreeState) : (writeMetadata st).data = st.dataOut := rfl

theorem writeMetadata_names (st : TreeState) :
    (writeMetadata st).names =
      st.names.map (fun e =>
        (rootedName e.1,
         if (alookup st.dirData e.1).isSome then e.2 + st.filesMeta.length else e.2)) := rfl

theorem writeMetadata_meta_len (st : TreeState) :
    (writeMetadata st).meta.length = st.filesMeta.length + st.dirMeta.length := by
  simp [writeMetadata]

theorem metaAt_default {ms : List ItemMetadata} {i : Nat} (h : ms.length ≤ i) :
    metaAt ms i = default := by
  rw [metaAt, List.getD_eq_getElem?_getD, List.getElem?_eq_none h]
  rfl

theorem writeMetadata_meta_at (st : TreeState) (i : Nat)
    (hi : i < st.filesMeta.length + st.dirMeta.length) :
    metaAt (writeMetadata st).meta i =
      (let fi := (st.filesMeta ++ st.dirMeta).getD i default
       if fi.isDir then
         (⟨fi.name, 0, fi.mode, fi.mtime, true,
           (alookup (st.dirData.map (fun e =>
              (rootedName e.1,
               e.2.files ++ e.2.subdirs.map (fun s => s + st.filesMeta.length))))
             (idx2nameOf (writeMetadata st).names i)).getD []⟩ : ItemMetadata)
       else ⟨fi.name, fi.size, fi.mode, fi.mtime, false, []⟩) := by
  have hlen : (st.filesMeta ++ st.dirMeta).length =
      st.filesMeta.length + st.dirMeta.length := by simp
  rw [metaAt, List.getD_eq_getElem?_getD]
  show ((writeMetadata st).meta[i]?).getD default = _
  have : (writeMetadata st).meta[i]? =
      some ((fun j =>
        (let fi := (st.filesMeta ++ st.dirMeta).getD j default
         if fi.isDir then
           (⟨fi.name, 0, fi.mode, fi.mtime, true,
             (alookup (st.dirData.map (fun e =>
                (rootedName e.1,
                 e.2.files ++ e.2.subdirs.map (fun s => s + st.filesMeta.length))))
               (idx2nameOf (writeMetadata st).names j)).getD []⟩ : ItemMetadata)
         else ⟨fi.name, fi.size, fi.mode, fi.mtime, false, []⟩)) i) := by
    show (List.map _ (List.range (st.filesMeta ++ st.dirMeta).length))[i]? = _
    rw [List.getElem?_map, List.getElem?_range (by omega)]
    rfl
  rw [this]
  rfl

theorem writeMetadata_children (st : TreeState) (i : Nat) :
    (metaAt (writeMetadata st).meta i).children = [] ∨
    ∃ p d, (p, d) ∈ st.dirData ∧
      (metaAt (writeMetadata st).meta i).children =
        d.files ++ d.subdirs.map (fun s => s + st.filesMeta.length) := by
  by_cases hi : i < st.filesMeta.length + st.dirMeta.length
  · rw [writeMetadata_meta_at st i hi]
    by_cases hd : ((st.filesMeta ++ st.dirMeta).getD i default).isDir
    · simp only [hd, if_true]
      cases hl : alookup (st.dirData.map (fun e =>
          (rootedName e.1,
           e.2.files ++ e.2.subdirs.map (fun s => s + st.filesMeta.length))))
          (idx2nameOf (writeMetadata st).names i) with
      | none => left; simp
      | some c =>
          right
          have hm := alookup_mem hl
          rcases List.mem_map.mp hm with ⟨e2, he2, heq⟩
          refine ⟨e2.1, e2.2, he2, ?_⟩
          have hc : c = e2.2.files ++ e2.2.subdirs.map (fun s => s + st.filesMeta.length) := by
            have := congrArg Prod.snd heq
            simpa using this.symm
          simp [hc]
    · simp only [hd, if_false]
      left
      rfl
  · left
    rw [metaAt_default (by rw [writeMetadata_meta_len]; omega)]
    rfl

/-- C9: in every built index, the children list of every directory entry
is a block of file identities (each below the file count, equal to the
length of the data table) followed by a block of directory identities
(each at least the file count), each block strictly increasing — that is,
in walk visitation order — so file children and subdirectory children are
never interleaved even when their names interleave lexically. -/
theorem c9_children_split (root : String) (t : FsTree) (fs : Assetfs)
    (hb : build root t = .ok fs) :
    ∀ i, (metaAt fs.meta i).isDir = true →
      ∃ A B, (metaAt fs.meta i).children = A ++ B ∧
        (∀ a ∈ A, a < fs.data.length) ∧
        (∀ b ∈ B, fs.data.length ≤ b) ∧
        A.Pairwise (fun a b => a < b) ∧ B.Pairwise (fun a b => a < b) := by
  intro i _
  unfold build at hb
  cases hrw : runWalk root (visits [] root (sortTree t)) initState with
  | error e => rw [hrw] at hb; cases hb
  | ok st =>
      rw [hrw] at hb
      injection hb with hb2
      subst hb2
      obtain ⟨hlen, hent⟩ := runWalk_dirsGood _ _ _ _ hrw initState_dirsGood
      have hdata : (writeMetadata st).data.length = st.filesMeta.length := by
        rw [writeMetadata_data]
        exact hlen
      rcases writeMetadata_children st i with hnil | ⟨p, d, hmem, hch⟩
      · exact ⟨[], [], by simp [hnil], by simp, by simp,
               List.Pairwise.nil, List.Pairwise.nil⟩
      · obtain ⟨p1, p2, p3, p4⟩ := hent (p, d) hmem
        refine ⟨d.files, d.subdirs.map (fun s => s + st.filesMeta.length),
                hch, ?_, ?_, p1, ?_⟩
        · intro a ha
          rw [hdata]
          exact p2 a ha
        · intro b hb3
          rcases List.mem_map.mp hb3 with ⟨s, _, rfl⟩
          rw [hdata]
          omega
        · exact p3.map _ (fun a b hab => by omega)

/-- Witness for C9 at the interleaved tree (files a and c, directories b
and d): the root entry at identity 2 splits its children into the file
block and the directory block. -/
theorem c9_witness :
    ∃ A B, (metaAt fsInter.meta 2).children = A ++ B ∧
      (∀ a ∈ A, a < fsInter.data.length) ∧
      (∀ b ∈ B, fsInter.data.length ≤ b) ∧
      A.Pairwise (fun a b => a < b) ∧ B.Pairwise (fun a b => a < b) :=
  c9_children_split "assets" treeInterleaved fsInter (by decide) 2 (by decide)

/-! Structure of the visit sequence: every visited path extends the path
of the subtree root, and under well-formedness all visited paths are
distinct. -/

mutual
theorem visits_path_ext (t : FsTree) : ∀ path nm v, v ∈ visits path nm t →
    ∃ r, v.path = path ++ r := by
  match t with
  | .file sz md mt d =>
      intro path nm v hv
      simp only [visits, List.mem_singleton] at hv
      exact ⟨[], by rw [hv]; simp⟩
  | .dir md mt es =>
      intro path nm v hv
      simp only [visits, List.mem_cons] at hv
      rcases hv with h | h
      · exact ⟨[], by rw [h]; simp⟩
      · rcases visitsE_path_ext es path v h with ⟨n, r, _, hp⟩
        exact ⟨n :: r, hp⟩
theorem visitsE_path_ext (es : FsEntries) : ∀ base v, v ∈ visitsE base es →
    ∃ n r, n ∈ es.keys ∧ v.path = base ++ n :: r := by
  match es with
  | .nil => intro base v hv; simp [visitsE] at hv
  | .cons n t rest =>
      intro base v hv
      simp only [visitsE, List.mem_append] at hv
      rcases hv with h | h
      · rcases visits_path_ext t (base ++ [n]) n v h with ⟨r, hp⟩
        refine ⟨n, r, by simp [FsEntries.keys], ?_⟩
        rw [hp]
        simp
      · rcases visitsE_path_ext rest base v h with ⟨m, r, hm, hp⟩
        exact ⟨m, r, by simp [FsEntries.keys, hm], hp⟩
end

mutual
theorem visits_paths_nodup (t : FsTree) : ∀ path nm, wfB t = true →
    ((visits path nm t).map (fun v => v.path)).Nodup := by
  match t with
  | .file sz md mt d => intro path nm _; simp [visits]
  | .dir md mt es =>
      intro path nm hwf
      simp only [wfB, Bool.and_eq_true, decide_eq_true_eq] at hwf
      obtain ⟨h1, h2⟩ := hwf
      simp only [visits, List.map_cons]
      rw [List.nodup_cons]
      constructor
      · intro hmem
        rcases List.mem_map.mp hmem with ⟨v, hv, hvp⟩
        rcases visitsE_path_ext es path v hv with ⟨n, r, _, hp⟩
        rw [hp] at hvp
        have := congrArg List.length hvp
        simp at this
      · exact visitsE_paths_nodup es path h2 h1
theorem visitsE_paths_nodup (es : FsEntries) : ∀ base, wfEntsB es = true →
    es.keys.Nodup → ((visitsE base es).map (fun v => v.path)).Nodup := by
  match es with
  | .nil => intro base _ _; simp [visitsE]
  | .cons n t rest =>
      intro base hwf hkeys
      simp only [wfEntsB, Bool.and_eq_true] at hwf
      obtain ⟨hwt, hwr⟩ := hwf
      simp only [FsEntries.keys, List.nodup_cons] at hkeys
      obtain ⟨hk1, hk2⟩ := hkeys
      simp only [visitsE, List.map_append]
      rw [List.nodup_append]
      refine ⟨visits_paths_nodup t (base ++ [n]) n hwt,
              visitsE_paths_nodup rest base hwr hk2, ?_⟩
      intro p hp1 hp2
      rcases List.mem_map.mp hp1 with ⟨v1, hv1, hvp1⟩
      rcases visits_path_ext t (base ++ [n]) n v1 hv1 with ⟨r1, hr1⟩
      rcases List.mem_map.mp hp2 with ⟨v2, hv2, hvp2⟩
      rcases visitsE_path_ext rest base v2 hv2 with ⟨m, r2, hm, hr2⟩
      have heq : (base ++ [n]) ++ r1 = base ++ m :: r2 := by
        rw [← hr1, ← hr2, hvp1, hvp2]
      rw [List.append_assoc] at heq
      have heq2 : n :: r1 = m :: r2 := by
        have := List.append_cancel_left heq
        simpa using this
      have hnm : n = m := (List.cons.injEq _ _ _ _ ▸ heq2).1
      exact hk1 (hnm ▸ hm)
end

/-! Sorting a tree preserves well-formedness and the per-level key sets. -/

theorem insertByName_keys_perm (nm : String) (t : FsTree) :
    ∀ es : FsEntries, (FsEntries.insertByName nm t es).keys.Perm (nm :: es.keys)
  | .nil => by simp [FsEntries.insertByName, FsEntries.keys]
  | .cons n u rest => by
      rw [FsEntries.insertByName]
      by_cases h : nameLe nm n
      · rw [if_pos h]
        simp [FsEntries.keys]
      · rw [if_neg h]
        show (FsEntries.cons n u (FsEntries.insertByName nm t rest)).keys.Perm _
        simp only [FsEntries.keys]
        exact ((insertByName_keys_perm nm t rest).cons n).trans
          (List.Perm.swap nm n rest.keys)

theorem sortByName_keys_perm :
    ∀ es : FsEntries, (FsEntries.sortByName es).keys.Perm es.keys
  | .nil => by simp [FsEntries.sortByName]
  | .cons n t rest => by
      rw [FsEntries.sortByName]
      show (FsEntries.insertByName n t (FsEntries.sortByName rest)).keys.Perm
        (FsEntries.cons n t rest).keys
      simp only [FsEntries.keys]
      exact (insertByName_keys_perm n t _).trans ((sortByName_keys_perm rest).cons n)

theorem sortEnts_keys : ∀ es : FsEntries, (sortEnts es).keys = es.keys
  | .nil => rfl
  | .cons n t rest => by simp [sortEnts, FsEntries.keys, sortEnts_keys rest]

theorem wfEntsB_insertByName (nm : String) (t : FsTree) :
    ∀ es : FsEntries,
      wfEntsB (FsEntries.insertByName nm t es) = (wfB t && wfEntsB es)
  | .nil => by simp [FsEntries.insertByName, wfEntsB]
  | .cons n u rest => by
      rw [FsEntries.insertByName]
      by_cases h : nameLe nm n
      · rw [if_pos h]
        show wfEntsB (.cons nm t (.cons n u rest)) = _
        simp [wfEntsB]
      · rw [if_neg h]
        show wfEntsB (.cons n u (FsEntries.insertByName nm t rest)) = _
        simp only [wfEntsB, wfEntsB_insertByName nm t rest]
        cases wfB t <;> cases wfB u <;> simp

theorem wfEntsB_sortByName :
    ∀ es : FsEntries, wfEntsB (FsEntries.sortByName es) = wfEntsB es
  | .nil => rfl
  | .cons n t rest => by
      rw [FsEntries.sortByName, wfEntsB_insertByName, wfEntsB_sortByName rest, wfEntsB]

mutual
theorem wfB_sortTree : ∀ t : FsTree, wfB t = true → wfB (sortTree t) = true := by
  intro t
  match t with
  | .file sz md mt d => intro _; rfl
  | .dir md mt es =>
      intro hwf
      simp only [wfB, Bool.and_eq_true, decide_eq_true_eq] at hwf
      obtain ⟨h1, h2⟩ := hwf
      show wfB (.dir md mt (FsEntries.sortByName (sortEnts es))) = true
      simp only [wfB, Bool.and_eq_true, decide_eq_true_eq]
      constructor
      · have hperm := sortByName_keys_perm (sortEnts es)
        rw [sortEnts_keys] at hperm
        exact hperm.nodup_iff.mpr h1
      · rw [wfEntsB_sortByName]
        exact wfEntsB_sortEnts es h2
theorem wfEntsB_sortEnts : ∀ es : FsEntries, wfEntsB es = true →
    wfEntsB (sortEnts es) = true := by
  intro es
  match es with
  | .nil => intro _; rfl
  | .cons n t rest =>
      intro hwf
      simp only [wfEntsB, Bool.and_eq_true] at hwf
      show wfEntsB (.cons n (sortTree t) (sortEnts rest)) = true
      simp only [wfEntsB, Bool.and_eq_true]
      exact ⟨wfB_sortTree t hwf.1, wfEntsB_sortEnts rest hwf.2⟩
end

/-! Preservation of the identity-layout invariant along the walk. -/

theorem walkFunc_namesGood {root : String} {st : TreeState} {v : VisitEntry}
    {st' : TreeState} (h : walkFunc root st v = .ok st') (hg : NamesGoodSt st)
    (hfresh : ∀ e ∈ st.names, e.1 ≠ v.path) :
    NamesGoodSt st' ∧
    st'.names.map Prod.fst = st.names.map Prod.fst ++ [v.path] ∧
    (∀ k, (alookup st'.dirData k).isSome = true →
      (alookup st.dirData k).isSome = true ∨ k = v.path) := by
  obtain ⟨hlen, hff, hdf, hnames, hsub⟩ := hg
  have hvfresh : (alookup st.dirData v.path).isSome = false := by
    cases hval : (alookup st.dirData v.path).isSome
    · rfl
    · rcases hsub v.path hval with ⟨i, hi⟩
      exact absurd rfl (hfresh (v.path, i) hi)
  rcases walkFunc_cases h with ⟨hd, upd, rfl, hupd⟩ | ⟨hd, hsz, upd, rfl, hupd⟩
  · -- directory step
    have hkeys : upd.map Prod.fst = st.dirData.map Prod.fst ++ [v.path] := by
      rcases hupd with rfl | ⟨pk, hpk, rfl⟩
      · simp
      · rw [aupdate_keys]
        simp
    have hlook : ∀ k, ((alookup upd k).isSome = true ↔
        (alookup st.dirData k).isSome = true ∨ k = v.path) := by
      intro k
      rw [alookup_isSome_keys, hkeys, alookup_isSome_keys]
      simp [or_comm, eq_comm]
    refine ⟨⟨hlen, hff, ?_, ?_, ?_⟩, by simp, fun k hk => (hlook k).mp hk⟩
    · intro fi hfi
      dsimp only at hfi
      rcases List.mem_append.mp hfi with h2 | h2
      · exact hdf fi h2
      · simp only [List.mem_singleton] at h2
        rw [h2]
        exact hd
    · intro e he
      dsimp only at he ⊢
      have hdm : (st.dirMeta ++ [v.info]).length = st.dirMeta.length + 1 := by simp
      rcases List.mem_append.mp he with h2 | h2
      · have hne : e.1 ≠ v.path := hfresh e h2
        obtain ⟨c1, c2⟩ := hnames e h2
        constructor
        · intro hk
          rcases (hlook e.1).mp hk with hk2 | hk2
          · rw [hdm]
            exact Nat.lt_succ_of_lt (c1 hk2)
          · exact absurd hk2 hne
        · intro hk
          have : (alookup st.dirData e.1).isSome = false := by
            cases hval : (alookup st.dirData e.1).isSome
            · rfl
            · have := (hlook e.1).mpr (Or.inl hval)
              rw [this] at hk
              cases hk
          exact c2 this
      · simp only [List.mem_singleton] at h2
        rw [h2]
        constructor
        · intro _
          rw [hdm]
          omega
        · intro hk
          have := (hlook v.path).mpr (Or.inr rfl)
          rw [this] at hk
          cases hk
    · intro p hp
      dsimp only at hp ⊢
      rcases (hlook p).mp hp with h2 | h2
      · rcases hsub p h2 with ⟨i, hi⟩
        exact ⟨i, List.mem_append.mpr (Or.inl hi)⟩
      · exact ⟨st.dirMeta.length, List.mem_append.mpr (Or.inr (by rw [h2]; simp))⟩
  · -- file step
    have hkeys : upd.map Prod.fst = st.dirData.map Prod.fst := by
      rcases hupd with rfl | ⟨pk, hpk, rfl⟩
      · rfl
      · rw [aupdate_keys]
    have hlook : ∀ k, ((alookup upd k).isSome = true ↔
        (alookup st.dirData k).isSome = true) := by
      intro k
      rw [alookup_isSome_keys, hkeys, alookup_isSome_keys]
    refine ⟨⟨by simp [hlen], ?_, hdf, ?_, ?_⟩, by simp, fun k hk => Or.inl ((hlook k).mp hk)⟩
    · intro fi hfi
      dsimp only at hfi
      rcases List.mem_append.mp hfi with h2 | h2
      · exact hff fi h2
      · simp only [List.mem_singleton] at h2
        rw [h2]
        exact hd
    · intro e he
      dsimp only at he ⊢
      have hfm : (st.filesMeta ++ [v.info]).length = st.filesMeta.length + 1 := by simp
      rcases List.mem_append.mp he with h2 | h2
      · obtain ⟨c1, c2⟩ := hnames e h2
        constructor
        · intro hk
          exact c1 ((hlook e.1).mp hk)
        · intro hk
          rw [hfm]
          have : (alookup st.dirData e.1).isSome = false := by
            cases hval : (alookup st.dirData e.1).isSome
            · rfl
            · have := (hlook e.1).mpr hval
              rw [this] at hk
              cases hk
          exact Nat.lt_succ_of_lt (c2 this)
      · simp only [List.mem_singleton] at h2
        rw [h2]
        constructor
        · intro hk
          have := (hlook v.path).mp hk
          rw [hvfresh] at this
          cases this
        · intro _
          rw [hfm]
          omega
    · intro p hp
      dsimp only at hp ⊢
      rcases hsub p ((hlook p).mp hp) with ⟨i, hi⟩
      exact ⟨i, List.mem_append.mpr (Or.inl hi)⟩

theorem runWalk_namesGood : ∀ (vs : List VisitEntry) (st st' : TreeState) (root : String),
    runWalk root vs st = .ok st' →
    NamesGoodSt st →
    ((vs.map (fun v => v.path)).Nodup) →
    (∀ e ∈ st.names, ∀ v ∈ vs, e.1 ≠ v.path) →
    NamesGoodSt st' := by
  intro vs
  induction vs with
  | nil =>
      intro st st' root h hg _ _
      injection h with h2
      rw [← h2]
      exact hg
  | cons v rest ih =>
      intro st st' root h hg hnodup hfresh
      rw [runWalk] at h
      cases hw : walkFunc root st v with
      | error e => rw [hw] at h; cases h
      | ok st1 =>
          rw [hw] at h
          obtain ⟨hg1, hmapkeys, _⟩ :=
            walkFunc_namesGood hw hg (fun e he => hfresh e he v (List.mem_cons_self _ _))
          rw [List.map_cons, List.nodup_cons] at hnodup
          refine ih st1 st' root h hg1 hnodup.2 ?_
          intro e he v2 hv2
          have hkey : e.1 ∈ st1.names.map Prod.fst := List.mem_map_of_mem _ he
          rw [hmapkeys] at hkey
          rcases List.mem_append.mp hkey with h2 | h2
          · rcases List.mem_map.mp h2 with ⟨e0, he0, heq⟩
            rw [← heq]
            exact hfresh e0 he0 v2 (List.mem_cons_of_mem _ hv2)
          · simp only [List.mem_singleton] at h2
            rw [h2]
            intro hcon
            exact hnodup.1 (hcon ▸ List.mem_map_of_mem (fun v => v.path) hv2)

theorem initState_namesGood : NamesGoodSt initState := by
  refine ⟨rfl, ?_, ?_, ?_, ?_⟩ <;> intro e he <;> cases he

/-! Reading entries out of the serialized info table. -/

theorem info_getD_mem_left (l₁ l₂ : List FileInfo) {i : Nat} (hi : i < l₁.length) :
    (l₁ ++ l₂).getD i default ∈ l₁ := by
  rw [List.getD_eq_getElem?_getD, List.getElem?_append, if_pos hi,
      List.getElem?_eq_getElem hi]
  exact List.getElem_mem hi

theorem info_getD_mem_right (l₁ l₂ : List FileInfo) {i : Nat} (h1 : l₁.length ≤ i)
    (h2 : i < l₁.length + l₂.length) :
    (l₁ ++ l₂).getD i default ∈ l₂ := by
  have h3 : ¬ i < l₁.length := by omega
  have h4 : i - l₁.length < l₂.length := by omega
  rw [List.getD_eq_getElem?_getD, List.getElem?_append, if_neg h3,
      List.getElem?_eq_getElem h4]
  exact List.getElem_mem h4

/-- C3: identity layout of every built index.  File entries occupy the
identity range below the file count (which equals the length of the data
table) and directory entries the range above it, so an entry is a
non-directory exactly when its identity indexes a data slice; every
identity recorded in the names map is in range for the meta table; and
consequently the slice accesses Open performs never go out of bounds, for
any queried name. -/
theorem c3_identity_layout (root : String) (t : FsTree) (fs : Assetfs)
    (hwf : wfB t = true) (hb : build root t = .ok fs) :
    (∀ i, i < fs.meta.length → ((metaAt fs.meta i).isDir = false ↔ i < fs.data.length)) ∧
    (∀ e ∈ fs.names, e.2 < fs.meta.length) ∧
    (∀ name, Assetfs.Open (some fs) name ≠ .oob) := by
  unfold build at hb
  cases hrw : runWalk root (visits [] root (sortTree t)) initState with
  | error e => rw [hrw] at hb; cases hb
  | ok st =>
      rw [hrw] at hb
      injection hb with hb2
      subst hb2
      have hnodup := visits_paths_nodup (sortTree t) [] root (wfB_sortTree t hwf)
      obtain ⟨hlen, hff, hdf, hnames, hsub⟩ :=
        runWalk_namesGood _ _ _ _ hrw initState_namesGood hnodup
          (by intro e he; cases he)
      have hmetalen := writeMetadata_meta_len st
      have hdatalen : (writeMetadata st).data.length = st.filesMeta.length := by
        rw [writeMetadata_data]
        exact hlen
      have hiff : ∀ i, i < (writeMetadata st).meta.length →
          ((metaAt (writeMetadata st).meta i).isDir = false ↔
            i < (writeMetadata st).data.length) := by
        intro i hi
        rw [hmetalen] at hi
        rw [writeMetadata_meta_at st i hi]
        by_cases hFi : i < st.filesMeta.length
        · have hdirf := hff _ (info_getD_mem_left st.filesMeta st.dirMeta hFi)
          simp only [hdirf, Bool.false_eq_true, if_false]
          simp only [true_iff]
          rw [hdatalen]
          exact hFi
        · have hdirt := hdf _ (info_getD_mem_right st.filesMeta st.dirMeta (by omega) hi)
          simp only [hdirt, if_true]
          simp only [Bool.true_eq_false, false_iff]
          rw [hdatalen]
          omega
      have hnb : ∀ e ∈ (writeMetadata st).names, e.2 < (writeMetadata st).meta.length := by
        intro e he
        rw [writeMetadata_names] at he
        rcases List.mem_map.mp he with ⟨e0, he0, heq⟩
        obtain ⟨c1, c2⟩ := hnames e0 he0
        rw [hmetalen]
        cases hval : (alookup st.dirData e0.1).isSome
        · have hb1 := c2 hval
          have he2 : e.2 = e0.2 := by
            rw [← heq]
            simp [hval]
          omega
        · have hb1 := c1 hval
          have he2 : e.2 = e0.2 + st.filesMeta.length := by
            rw [← heq]
            simp [hval]
          omega
      refine ⟨hiff, hnb, ?_⟩
      intro name hcon
      rw [Assetfs.Open] at hcon
      cases hl : (writeMetadata st).names.lookup (pathClean ("/" ++ name)) with
      | none => rw [hl] at hcon; simp at hcon
      | some i =>
          rw [hl] at hcon
          dsimp only at hcon
          have hibound : i < (writeMetadata st).meta.length :=
            hnb _ (lookup_pair_mem hl)
          obtain ⟨m, hm⟩ : ∃ m, (writeMetadata st).meta[i]? = some m :=
            ⟨_, List.getElem?_eq_getElem hibound⟩
          rw [hm] at hcon
          dsimp only at hcon
          have hmi : metaAt (writeMetadata st).meta i = m := by
            rw [metaAt, List.getD_eq_getElem?_getD, hm]
            rfl
          by_cases hdir : m.isDir
          · rw [if_pos hdir] at hcon
            cases hcon
          · rw [if_neg hdir] at hcon
            have hflt : i < (writeMetadata st).data.length := by
              refine (hiff i hibound).mp ?_
              rw [hmi]
              simpa using hdir
            obtain ⟨d, hd⟩ : ∃ d, (writeMetadata st).data[i]? = some d :=
              ⟨_, List.getElem?_eq_getElem hflt⟩
            rw [hd] at hcon
            dsimp only at hcon
            cases hcon

/-- Witness for C3 at the built red/green index. -/
theorem c3_witness :
    (∀ i, i < fsRG.meta.length →
      ((metaAt fsRG.meta i).isDir = false ↔ i < fsRG.data.length)) ∧
    (∀ e ∈ fsRG.names, e.2 < fsRG.meta.length) ∧
    (∀ name, Assetfs.Open (some fsRG) name ≠ .oob) :=
  c3_identity_layout "static" treeRG fsRG (by decide) (by decide)

/-! Concatenation behavior of the walk and single-step success shapes. -/

theorem runWalk_append_ok {root : String} {l₁ : List VisitEntry} {st st1 : TreeState}
    (h : runWalk root l₁ st = .ok st1) (l₂ : List VisitEntry) :
    runWalk root (l₁ ++ l₂) st = runWalk root l₂ st1 := by
  induction l₁ generalizing st with
  | nil =>
      injection h with h2
      rw [h2]
      rfl
  | cons v rest ih =>
      rw [runWalk] at h
      rw [List.cons_append, runWalk]
      cases hw : walkFunc root st v with
      | error e => rw [hw] at h; exact absurd h (by simp)
      | ok stx =>
          rw [hw] at h
          exact ih h

theorem runWalk_append_error {root : String} {l₁ : List VisitEntry} {st : TreeState}
    {e : String} (h : runWalk root l₁ st = .error e) (l₂ : List VisitEntry) :
    runWalk root (l₁ ++ l₂) st = .error e := by
  induction l₁ generalizing st with
  | nil => cases h
  | cons v rest ih =>
      rw [runWalk] at h
      rw [List.cons_append, runWalk]
      cases hw : walkFunc root st v with
      | error e2 => rw [hw] at h; exact h
      | ok stx =>
          rw [hw] at h
          exact ih h

theorem walkFunc_not_error (root : String) (st : TreeState) (v : VisitEntry)
    (hok : ¬(v.info.isDir = false ∧ maxFileSize < v.info.size)) :
    ∃ st1, walkFunc root st v = .ok st1 := by
  cases hw : walkFunc root st v with
  | ok st1 => exact ⟨st1, rfl⟩
  | error e =>
      exfalso
      by_cases hd : v.info.isDir
      · rcases hv : v.path with _ | ⟨s, rest⟩ <;>
          simp only [walkFunc, hd, if_true, hv, parentKey] at hw <;>
          exact Except.noConfusion hw
      · have hd2 : v.info.isDir = false := by simpa using hd
        by_cases hsz : maxFileSize < v.info.size
        · exact hok ⟨hd2, hsz⟩
        · rcases hv : v.path with _ | ⟨s, rest⟩ <;>
            simp only [walkFunc, hd2, Bool.false_eq_true, if_false, hsz, hv,
              parentKey] at hw <;>
            exact Except.noConfusion hw

theorem walkFunc_dir_ok (root : String) (st : TreeState) (v : VisitEntry)
    (hd : v.info.isDir = true) : ∃ st1, walkFunc root st v = .ok st1 := by
  refine walkFunc_not_error root st v ?_
  rintro ⟨hf, _⟩
  rw [hd] at hf
  cases hf

theorem walkFunc_file_ok (root : String) (st : TreeState) (v : VisitEntry)
    (_hd : v.info.isDir = false) (hsz : v.info.size ≤ maxFileSize) :
    ∃ st1, walkFunc root st v = .ok st1 := by
  refine walkFunc_not_error root st v ?_
  rintro ⟨_, hsz2⟩
  omega

theorem walkFunc_file_err (root : String) (st : TreeState) (v : VisitEntry)
    (hd : v.info.isDir = false) (hsz : maxFileSize < v.info.size) :
    walkFunc root st v = .error (sizeErrMsg root v.path) := by
  simp only [walkFunc, hd, Bool.false_eq_true, if_false, hsz, if_true]

/-! The size predicate is invariant under sorting the tree. -/

theorem allSmallEntsB_insertByName (nm : String) (t : FsTree) :
    ∀ es : FsEntries,
      allSmallEntsB (FsEntries.insertByName nm t es) = (allSmallB t && allSmallEntsB es)
  | .nil => by simp [FsEntries.insertByName, allSmallEntsB]
  | .cons n u rest => by
      rw [FsEntries.insertByName]
      by_cases h : nameLe nm n
      · rw [if_pos h]
        show allSmallEntsB (.cons nm t (.cons n u rest)) = _
        simp [allSmallEntsB]
      · rw [if_neg h]
        show allSmallEntsB (.cons n u (FsEntries.insertByName nm t rest)) = _
        simp only [allSmallEntsB, allSmallEntsB_insertByName nm t rest]
        cases allSmallB t <;> cases allSmallB u <;> simp

theorem allSmallEntsB_sortByName :
    ∀ es : FsEntries, allSmallEntsB (FsEntries.sortByName es) = allSmallEntsB es
  | .nil => rfl
  | .cons n t rest => by
      rw [FsEntries.sortByName, allSmallEntsB_insertByName,
          allSmallEntsB_sortByName rest, allSmallEntsB]

mutual
theorem allSmallB_sortTree : ∀ t : FsTree, allSmallB (sortTree t) = allSmallB t := by
  intro t
  match t with
  | .file sz md mt d => rfl
  | .dir md mt es =>
      show allSmallB (.dir md mt (FsEntries.sortByName (sortEnts es))) = _
      simp only [allSmallB, allSmallEntsB_sortByName]
      exact allSmallEntsB_sortEnts es
theorem allSmallEntsB_sortEnts :
    ∀ es : FsEntries, allSmallEntsB (sortEnts es) = allSmallEntsB es := by
  intro es
  match es with
  | .nil => rfl
  | .cons n t rest =>
      show allSmallEntsB (.cons n (sortTree t) (sortEnts rest)) = _
      simp only [allSmallEntsB, allSmallB_sortTree t, allSmallEntsB_sortEnts rest]
end

/-! Membership in sorted children lists. -/

theorem entMem_insertByName {nm : String} {t' : FsTree} {n : String} {u : FsTree} :
    ∀ {es : FsEntries}, EntMem nm t' (FsEntries.insertByName n u es) →
      (nm = n ∧ t' = u) ∨ EntMem nm t' es := by
  intro es
  match es with
  | .nil =>
      intro h
      rw [FsEntries.insertByName] at h
      cases h with
      | head => exact Or.inl ⟨rfl, rfl⟩
      | tail _ _ _ h2 => cases h2
  | .cons m w rest =>
      intro h
      rw [FsEntries.insertByName] at h
      by_cases hle : nameLe n m
      · rw [if_pos hle] at h
        cases h with
        | head => exact Or.inl ⟨rfl, rfl⟩
        | tail _ _ _ h2 => exact Or.inr h2
      · rw [if_neg hle] at h
        cases h with
        | head => exact Or.inr (EntMem.head _ _ _)
        | tail _ _ _ h2 =>
            rcases entMem_insertByName h2 with h3 | h3
            · exact Or.inl h3
            · exact Or.inr (EntMem.tail _ _ _ _ _ h3)

theorem entMem_sortByName {nm : String} {t' : FsTree} :
    ∀ {es : FsEntries}, EntMem nm t' (FsEntries.sortByName es) → EntMem nm t' es := by
  intro es
  match es with
  | .nil => intro h; cases h
  | .cons n u rest =>
      intro h
      rw [FsEntries.sortByName] at h
      rcases entMem_insertByName h with ⟨rfl, rfl⟩ | h2
      · exact EntMem.head _ _ _
      · exact EntMem.tail _ _ _ _ _ (entMem_sortByName h2)

theorem entMem_sortEnts {nm : String} {t' : FsTree} :
    ∀ {es : FsEntries}, EntMem nm t' (sortEnts es) →
      ∃ t0, EntMem nm t0 es ∧ t' = sortTree t0 := by
  intro es
  match es with
  | .nil => intro h; cases h
  | .cons n u rest =>
      intro h
      cases h with
      | head => exact ⟨u, EntMem.head _ _ _, rfl⟩
      | tail _ _ _ h2 =>
          rcases entMem_sortEnts h2 with ⟨t0, hm, he⟩
          exact ⟨t0, EntMem.tail _ _ _ _ _ hm, he⟩

theorem hasBigAt_sortTree : ∀ (t : FsTree) (p : List String),
    HasBigAt (sortTree t) p → HasBigAt t p := by
  intro t p h
  generalize ht : sortTree t = t2 at h
  induction h generalizing t with
  | here sz md mt dat hsz =>
      cases t with
      | file sz2 md2 mt2 d2 =>
          rw [sortTree] at ht
          injection ht with e1 e2 e3 e4
          rw [← e1] at hsz
          exact HasBigAt.here _ _ _ _ hsz
      | dir md2 mt2 es2 => rw [sortTree] at ht; cases ht
  | there md mt es nm u rest hmem hbig ih =>
      cases t with
      | file sz2 md2 mt2 d2 => rw [sortTree] at ht; cases ht
      | dir md2 mt2 es2 =>
          rw [sortTree] at ht
          injection ht with e1 e2 e3
          rw [← e3] at hmem
          rcases entMem_sortEnts (entMem_sortByName hmem) with ⟨t0, hm0, he0⟩
          exact HasBigAt.there _ _ _ _ _ _ hm0 (ih t0 he0.symm)

/-! The walk succeeds on trees within the ceiling and aborts with the
size message of an offending file otherwise. -/

mutual
theorem visits_walk_ok : ∀ (t : FsTree) (path : List String) (nm root : String)
    (st : TreeState), allSmallB t = true →
    ∃ st', runWalk root (visits path nm t) st = .ok st' := by
  intro t
  match t with
  | .file sz md mt d =>
      intro path nm root st hsmall
      simp only [allSmallB, decide_eq_true_eq] at hsmall
      rcases walkFunc_file_ok root st ⟨path, ⟨nm, sz, md, mt, false⟩, d⟩ rfl hsmall with
        ⟨st1, hw⟩
      refine ⟨st1, ?_⟩
      rw [visits, runWalk, hw]
      rfl
  | .dir md mt es =>
      intro path nm root st hsmall
      simp only [allSmallB] at hsmall
      rcases walkFunc_dir_ok root st ⟨path, ⟨nm, 0, md, mt, true⟩, []⟩ rfl with ⟨st1, hw⟩
      rcases visitsE_walk_ok es path root st1 hsmall with ⟨st2, hrest⟩
      refine ⟨st2, ?_⟩
      rw [visits, runWalk, hw]
      exact hrest
theorem visitsE_walk_ok : ∀ (es : FsEntries) (base : List String) (root : String)
    (st : TreeState), allSmallEntsB es = true →
    ∃ st', runWalk root (visitsE base es) st = .ok st' := by
  intro es
  match es with
  | .nil => intro base root st _; exact ⟨st, rfl⟩
  | .cons n t rest =>
      intro base root st hsmall
      simp only [allSmallEntsB, Bool.and_eq_true] at hsmall
      rcases visits_walk_ok t (base ++ [n]) n root st hsmall.1 with ⟨st1, h1⟩
      rcases visitsE_walk_ok rest base root st1 hsmall.2 with ⟨st2, h2⟩
      refine ⟨st2, ?_⟩
      rw [visitsE, runWalk_append_ok h1]
      exact h2
end

mutual
theorem visits_walk_err : ∀ (t : FsTree) (path : List String) (nm root : String)
    (st : TreeState), allSmallB t = false →
    ∃ rel, runWalk root (visits path nm t) st =
        .error (sizeErrMsg root (path ++ rel)) ∧ HasBigAt t rel := by
  intro t
  match t with
  | .file sz md mt d =>
      intro path nm root st hsmall
      simp only [allSmallB, decide_eq_false_iff_not] at hsmall
      have hsz : maxFileSize < sz := by omega
      refine ⟨[], ?_, HasBigAt.here _ _ _ _ hsz⟩
      rw [visits, runWalk, walkFunc_file_err root st _ rfl hsz]
      simp
  | .dir md mt es =>
      intro path nm root st hsmall
      simp only [allSmallB] at hsmall
      rcases walkFunc_dir_ok root st ⟨path, ⟨nm, 0, md, mt, true⟩, []⟩ rfl with ⟨st1, hw⟩
      rcases visitsE_walk_err es path root st1 hsmall with
        ⟨n2, t2, rel, hmem, hbig, herr⟩
      refine ⟨n2 :: rel, ?_, HasBigAt.there _ _ _ _ _ _ hmem hbig⟩
      rw [visits, runWalk, hw]
      exact herr
theorem visitsE_walk_err : ∀ (es : FsEntries) (base : List String) (root : String)
    (st : TreeState), allSmallEntsB es = false →
    ∃ nm t' rel, EntMem nm t' es ∧ HasBigAt t' rel ∧
      runWalk root (visitsE base es) st =
        .error (sizeErrMsg root (base ++ nm :: rel)) := by
  intro es
  match es with
  | .nil => intro base root st h; simp [allSmallEntsB] at h
  | .cons n t rest =>
      intro base root st hsmall
      simp only [allSmallEntsB] at hsmall
      cases hat : allSmallB t with
      | false =>
          rcases visits_walk_err t (base ++ [n]) n root st hat with ⟨rel, herr, hbig⟩
          refine ⟨n, t, rel, EntMem.head _ _ _, hbig, ?_⟩
          rw [visitsE, runWalk_append_error herr]
          congr 1
          simp
      | true =>
          have hrest : allSmallEntsB rest = false := by
            rw [hat] at hsmall
            simpa using hsmall
          rcases visits_walk_ok t (base ++ [n]) n root st hat with ⟨st1, h1⟩
          rcases visitsE_walk_err rest base root st1 hrest with
            ⟨n2, t2, rel, hmem, hbig, herr⟩
          refine ⟨n2, t2, rel, EntMem.tail _ _ _ _ _ hmem, hbig, ?_⟩
          rw [visitsE, runWalk_append_ok h1]
          exact herr
end

/-- C5: size-ceiling enforcement.  If any regular file in the input tree
has stat size above 10 MiB the whole build aborts with the size-limit
message naming the path of an actually offending file, and no index (not
even a partial one) is produced; if every file is within the ceiling —
a file of exactly 10 MiB included — the build succeeds. -/
theorem c5_size_ceiling (root : String) (t : FsTree) :
    (allSmallB t = false →
      ∃ p, build root t = .error (sizeErrMsg root p) ∧ HasBigAt t p) ∧
    (allSmallB t = true → ∃ fs, build root t = .ok fs) := by
  constructor
  · intro hsmall
    have hs2 : allSmallB (sortTree t) = false := by
      rw [allSmallB_sortTree]
      exact hsmall
    rcases visits_walk_err (sortTree t) [] root root initState hs2 with ⟨rel, herr, hbig⟩
    refine ⟨rel, ?_, hasBigAt_sortTree t rel hbig⟩
    unfold build
    rw [herr]
    simp
  · intro hsmall
    have hs2 : allSmallB (sortTree t) = true := by
      rw [allSmallB_sortTree]
      exact hsmall
    rcases visits_walk_ok (sortTree t) [] root root initState hs2 with ⟨st', hok⟩
    refine ⟨writeMetadata st', ?_⟩
    unfold build
    rw [hok]

/-- Witness for C5: the 11 MiB tree aborts with the size message of an
offending path, and the tree with a file of exactly 10 MiB builds. -/
theorem c5_witness :
    (∃ p, build "assets" treeBig = .error (sizeErrMsg "assets" p) ∧
      HasBigAt treeBig p) ∧
    (∃ fs, build "assets" treeMaxOk = .ok fs) :=
  ⟨(c5_size_ceiling "assets" treeBig).1 (by decide),
   (c5_size_ceiling "assets" treeMaxOk).2 (by decide)⟩
